import Mathlib

/-!
# Verification of the QUIP packet codec (src/Scripts/qpaceQUIP.py)

Shallow embedding of the QUIP protocol engine: the `Packet` frame
builder, the encoder's file-to-packet fragmentation, the decoder's
bulk reassembly pass, and the triple-modular-redundancy majority-vote
codec (`resolveExpansion`).

Conventions of the embedding:
* Python `bytes`/`bytearray` values are `List ℕ` with every element a
  byte (`< 256` where the source guarantees it).
* Python `str` values are `List ℕ` of Unicode code points; `ord` is the
  identity on this representation, `chr` is omitted.
* Machine integers are `ℕ`/`ℤ`; Python float arithmetic appears once
  (the `overflow` slip, claim about `(max_id / pid) % 2`) and is
  modelled exactly with `ℚ` — at every input considered here the real
  quotient is a dyadic rational representable exactly in an IEEE double,
  so the rational model agrees with CPython's float result.
* Exceptions are `Except PyErr`; `Option` marks partial primitives.
* The mutable class attributes `Packet.last_id` and `Packet.overflow`
  are threaded explicitly as a `PacketState`.
-/

namespace QpaceQUIP

/-! ## Constants (class attributes of `Packet`, lines 15–27) -/

def syncW : ℕ := 0xFFFF
def startW : ℕ := 0xABCD
def endW : ℕ := 0xDCBA
def max_size : ℕ := 256
def data_size : ℕ := 77
def max_id : ℕ := 0xFFFFFFFF

/-- The process-wide mutable class attributes of `Packet`:
`Packet.last_id` (initially `-1`) and `Packet.overflow` (initially `0`;
becomes a float after the pid-overflow assignment on line 80, hence `ℚ`). -/
structure PacketState where
  last_id : ℤ
  overflow : ℚ
  deriving Repr, DecidableEq

/-- Module-load state: `last_id = -1`, `overflow = 0`. -/
def initState : PacketState := ⟨-1, 0⟩

/-- Python exceptions raised (or modelled) by the source. `outOfFuel` is an
artifact of modelling unbounded `while` loops with fuel; it is never the
image of any source behaviour and every theorem supplies enough fuel. -/
inductive PyErr where
  | valueErrorPid        -- "Packet pid is invalid. Must be a positive number."
  | valueErrorOrder      -- "Packet pid out of order."
  | valueErrorSize       -- "Packet size is too large ..."
  | typeError            -- e.g. float << int in buildHeader
  | attributeError       -- None.op_code in setLastPacket
  | unicodeDecodeError   -- bytes.decode('utf-8') failure
  | valueErrorInt        -- int(...) parse failure
  | indexError           -- list index out of range
  | outOfFuel
  deriving Repr, DecidableEq

/-- An in-memory packet: `self.data`, `self.pid`, `self.op_code`
(fields set by `Packet.__init__`). -/
structure Packet where
  data : List ℕ
  pid : ℕ
  op_code : ℕ
  deriving Repr, DecidableEq

/-- Python float `x % 2` for the values arising here (`x = max_id / pid`):
`x - 2 * ⌊x / 2⌋`. -/
def qmod2 (x : ℚ) : ℚ := x - 2 * ⌊x / 2⌋

/-- Embedding of `Packet.__init__(data, pid, **kwargs)` (lines 29–85), with the class
state threaded.  Note the Python operator precedence on line 71:
`op_code == 0x0 or op_code == 0x7 and (last_id + 1) == pid` parses as
`op_code == 0x0 ∨ (op_code == 0x7 ∧ last_id + 1 == pid)` — the ordering
check is *not* applied to `op_code 0x0`.  On line 80, for `pid > max_id`
the class attribute `overflow` is assigned the float `(max_id / pid) % 2`. -/
def constructPacket (st : PacketState) (data : List ℕ) (pid : ℤ) (op_code : ℕ) :
    Except PyErr (Packet × PacketState) :=
  if pid < 0 then .error .valueErrorPid
  else if data.length ≤ data_size then
    if op_code = 0x0 ∨ (op_code = 0x7 ∧ st.last_id + 1 = pid) then
      .ok (⟨data, (pid % (max_id : ℤ)).toNat, op_code⟩,
        if pid > (max_id : ℤ) then
          ⟨pid, qmod2 ((max_id : ℚ) / (pid : ℚ))⟩
        else ⟨pid, st.overflow⟩)
    else if 0x0 < op_code ∧ op_code < 0x7 then
      .ok (⟨data, 0, op_code⟩,
        if pid > (max_id : ℤ) then
          ⟨st.last_id, qmod2 ((max_id : ℚ) / (pid : ℚ))⟩
        else st)
    else .error .valueErrorOrder
  else .error .valueErrorSize

/-! ## Frame serialization (`buildHeader`, `buildData`, `buildFooter`, `build`) -/

/-- Python `n.to_bytes(2, 'big')` for `n < 2^16`. -/
def toBytes2 (n : ℕ) : List ℕ := [n / 2 ^ 8 % 256, n % 256]

/-- Python `n.to_bytes(4, 'big')` for `n < 2^32`. -/
def toBytes4 (n : ℕ) : List ℕ :=
  [n / 2 ^ 24 % 256, n / 2 ^ 16 % 256, n / 2 ^ 8 % 256, n % 256]

/-- Python `struct.unpack('>L', b[0:4])`. -/
def fromBytes4 (l : List ℕ) : ℕ :=
  l.getD 0 0 * 2 ^ 24 + l.getD 1 0 * 2 ^ 16 + l.getD 2 0 * 2 ^ 8 + l.getD 3 0

/-- The header-tail flags byte `(overflow << 7) | (op_code << 4)` (line 98),
with an integer overflow bit. -/
def flagsByte (ovBit op : ℕ) : ℕ := (ovBit <<< 7) ||| (op <<< 4)

/-- Embedding of `Packet.buildHeader` (lines 87–99) with the class `overflow` already
reduced to an integer bit: `sync ++ start ++ (pid₄ ++ flags) * 3`. -/
def buildHeaderI (ovBit : ℕ) (p : Packet) : List ℕ :=
  toBytes2 syncW ++ toBytes2 startW ++
    (toBytes4 p.pid ++ [flagsByte ovBit p.op_code]) ++
    (toBytes4 p.pid ++ [flagsByte ovBit p.op_code]) ++
    (toBytes4 p.pid ++ [flagsByte ovBit p.op_code])

/-- Embedding of `Packet.buildData` (lines 101–111): `self.data * 3` — plain
concatenation (the comment about interleaving notwithstanding). -/
def buildData (p : Packet) : List ℕ := p.data ++ p.data ++ p.data

/-- Embedding of `Packet.buildFooter` (lines 113–123): `end ++ sync`. -/
def buildFooter : List ℕ := toBytes2 endW ++ toBytes2 syncW

/-- Embedding of `Packet.build` (lines 125–139) with an integer overflow bit: header,
data, footer, then `0xFF` padding up to `max_size` bytes (the
`while len(packet) < max_size` loop). -/
def buildI (ovBit : ℕ) (p : Packet) : List ℕ :=
  let packet := buildHeaderI ovBit p ++ buildData p ++ buildFooter
  packet ++ List.replicate (max_size - packet.length) 0xFF

/-- Embedding of `Packet.build` reading the class attribute `Packet.overflow`: when the
attribute is a non-negative integer the frame is built; a float value
(possible after the line-80 assignment) makes `overflow << 7` in
`buildHeader` raise `TypeError`. -/
def build (ov : ℚ) (p : Packet) : Except PyErr (List ℕ) :=
  if ov.den = 1 ∧ 0 ≤ ov.num then .ok (buildI ov.num.toNat p)
  else .error .typeError

/-! ## Majority-vote codec (`Decoder.resolveExpansion`, lines 443–451) -/

/-- Python `max(set((a, b, c)), key = vote.count)` for one byte position: the
value occurring most often among the three candidates.  When all three
candidates are pairwise distinct every count is 1 and CPython's answer
depends on `set` iteration order, which the source does not determine;
this model returns the first candidate in that (never relied upon) case. -/
def majority3 (a b c : ℕ) : ℕ :=
  if a = b ∨ a = c then a else if b = c then b else a

/-- Embedding of `Decoder.resolveExpansion(information)` with the default
`size = len(information) // 3`: position `i` of the output is the majority
of positions `i`, `i + size`, `i + 2 * size` of the input. -/
def resolveExpansion (information : List ℕ) : List ℕ :=
  let size := information.length / 3
  (List.range size).map fun i =>
    majority3 (information.getD i 0) (information.getD (i + size) 0)
      (information.getD (i + 2 * size) 0)

/-- Embedding of `Decoder.decipherHeader(header)` (lines 453–460): `(pid, overflow bit,
op_code)` recovered from the 5-byte majority-voted header tail. -/
def decipherHeader (header : List ℕ) : ℕ × ℕ × ℕ :=
  (fromBytes4 header, header.getD 4 0 >>> 7 &&& 1, header.getD 4 0 >>> 4 &&& 7)

/-- Python `packet_data.find(bytes.fromhex('dcba'))`: index of the first
occurrence of the adjacent byte pair `0xDC, 0xBA`, `none` for Python's
`-1`. -/
def findPair : List ℕ → Option ℕ
  | a :: b :: rest =>
      if a = 0xDC ∧ b = 0xBA then some 0
      else (findPair (b :: rest)).map (· + 1)
  | _ => none

/-- Slicing `packet_data[19 : packet_data.find(b'\xdc\xba')]` (lines 305, 341,
414); Python `find` returns `-1` when the pair is absent, and
`[19:-1]` then drops only the final byte. -/
def extractInfo (frame : List ℕ) : List ℕ :=
  match findPair frame with
  | some k => (frame.drop 19).take (k - 19)
  | none => (frame.drop 19).take (frame.length - 1 - 19)

/-- Derived predicate: the byte list contains an occurrence of the
end-word byte pair `0xDC, 0xBA` (i.e. Python `find` would not return
`-1` on it). -/
def hasPair (l : List ℕ) : Bool := (findPair l).isSome

/-- Derived predicate: the 4-byte big-endian encoding of a pid contains
no adjacent `0xDC, 0xBA` pair (so the end-word search cannot fire inside
the frame header). -/
def pidClean (p : ℕ) : Prop := hasPair (toBytes4 p) = false

instance (p : ℕ) : Decidable (pidClean p) := by
  unfold pidClean
  infer_instance

/-- The deserializer described by the spec's §4.3: header fields by
majority vote over bytes `[4:19]` (`decipherHeader`∘`resolveExpansion`,
line 339), payload by majority vote over bytes from offset 19 up to the
first end-word occurrence (line 341). Returns `(payload, pid, op_code)`. -/
def deserializeFrame (frame : List ℕ) : List ℕ × ℕ × ℕ :=
  let h := decipherHeader (resolveExpansion ((frame.drop 4).take 15))
  (resolveExpansion (extractInfo frame), h.1, h.2.2)

/-! ## Python string/bytes primitives used by the source

The source leans on CPython built-ins (`bytes.decode('utf-8')`,
`bytearray(s, 'utf-8')`, `str.split(' ')`, `int(s)`, `bytearray.fromhex`,
`str(n)`, `zip_longest` chunking).  These are modelled here following the
CPython documentation, at the argument shapes the source produces. -/

/-- One step of strict UTF-8 decoding (CPython `bytes.decode('utf-8')`):
decode the first scalar from the byte list, returning the code point and
the remaining bytes, or `none` on a malformed prefix. -/
def utf8DecodeOne : List ℕ → Option (ℕ × List ℕ)
  | [] => none
  | b :: rest =>
    if b < 0x80 then some (b, rest)
    else if 0xC2 ≤ b ∧ b ≤ 0xDF then
      match rest with
      | b1 :: rest1 =>
        if 0x80 ≤ b1 ∧ b1 ≤ 0xBF then
          some ((b - 0xC0) * 0x40 + (b1 - 0x80), rest1)
        else none
      | [] => none
    else if 0xE0 ≤ b ∧ b ≤ 0xEF then
      match rest with
      | b1 :: b2 :: rest2 =>
        if ((b = 0xE0 ∧ 0xA0 ≤ b1) ∨ (b = 0xED ∧ b1 ≤ 0x9F) ∨
              (b ≠ 0xE0 ∧ b ≠ 0xED ∧ 0x80 ≤ b1)) ∧ b1 ≤ 0xBF ∧
            0x80 ≤ b2 ∧ b2 ≤ 0xBF then
          some ((b - 0xE0) * 0x1000 + (b1 - 0x80) * 0x40 + (b2 - 0x80), rest2)
        else none
      | _ => none
    else if 0xF0 ≤ b ∧ b ≤ 0xF4 then
      match rest with
      | b1 :: b2 :: b3 :: rest3 =>
        if ((b = 0xF0 ∧ 0x90 ≤ b1) ∨ (b = 0xF4 ∧ b1 ≤ 0x8F) ∨
              (b ≠ 0xF0 ∧ b ≠ 0xF4 ∧ 0x80 ≤ b1)) ∧ b1 ≤ 0xBF ∧
            0x80 ≤ b2 ∧ b2 ≤ 0xBF ∧ 0x80 ≤ b3 ∧ b3 ≤ 0xBF then
          some ((b - 0xF0) * 0x40000 + (b1 - 0x80) * 0x1000 +
            (b2 - 0x80) * 0x40 + (b3 - 0x80), rest3)
        else none
      | _ => none
    else none

/-- Iterate `utf8DecodeOne`; the fuel is only a termination device (one
unit per decoded scalar, each of which consumes at least one byte). -/
def utf8DecodeAux : ℕ → List ℕ → Option (List ℕ)
  | _, [] => some []
  | 0, _ :: _ => none
  | fuel + 1, b :: rest =>
    match utf8DecodeOne (b :: rest) with
    | some (c, rest2) => (utf8DecodeAux fuel rest2).map fun t => c :: t
    | none => none

/-- Strict UTF-8 decoding of a byte list into code points, CPython
`bytes.decode('utf-8')`: `none` models `UnicodeDecodeError`. -/
def utf8Decode (l : List ℕ) : Option (List ℕ) := utf8DecodeAux l.length l

/-- Encoding of one code point per CPython `str.encode('utf-8')`;
surrogate code points, which CPython rejects, never arise here). -/
def utf8EncodeChar (c : ℕ) : List ℕ :=
  if c < 0x80 then [c]
  else if c < 0x800 then [0xC0 + c / 0x40, 0x80 + c % 0x40]
  else if c < 0x10000 then
    [0xE0 + c / 0x1000, 0x80 + c / 0x40 % 0x40, 0x80 + c % 0x40]
  else
    [0xF0 + c / 0x40000, 0x80 + c / 0x1000 % 0x40,
      0x80 + c / 0x40 % 0x40, 0x80 + c % 0x40]

/-- Python `bytearray(s, 'utf-8')` / `s.encode('utf-8')` on a code-point list. -/
def utf8Encode (l : List ℕ) : List ℕ := (l.map utf8EncodeChar).flatten

/-- The 77-element chunking shared by `Encoder.encode`
(`fileToEncode.read(Packet.data_size)`, line 198) and
`Decoder.ammendScaffoldData`
(`zip_longest(*[iter(scaffold_data)] * Packet.data_size, fillvalue='')`,
line 389): chunks of `data_size = 77`, last chunk possibly shorter,
no empty chunk. -/
def chunks77Aux : ℕ → List ℕ → List (List ℕ)
  | _, [] => []
  | 0, a :: t => [a :: t]
  | fuel + 1, a :: t => (a :: t.take 76) :: chunks77Aux fuel (t.drop 76)

def chunks77 (l : List ℕ) : List (List ℕ) := chunks77Aux l.length l

/-- Embedding of `Decoder.ammendScaffoldData(scaffold_data, to_write, pid)`
(lines 380–394): split the scaffold into 77-character chunks, overwrite
chunk `pid` (appending on `IndexError`), and re-join. -/
def ammendScaffoldData (scaffold_data to_write : List ℕ) (pid : ℕ) : List ℕ :=
  let cs := chunks77 scaffold_data
  if pid < cs.length then (cs.set pid to_write).flatten
  else (cs ++ [to_write]).flatten

/-- CPython `str.split(' ')` (splitting at every single space). -/
def pySplitSp : List ℕ → List (List ℕ)
  | [] => [[]]
  | c :: rest =>
    if c = 32 then [] :: pySplitSp rest
    else
      match pySplitSp rest with
      | r :: rs => (c :: r) :: rs
      | [] => [[c]]

/-- Python `int(s)` on the decimal-digit strings produced here; `none` models
the `ValueError` on anything malformed (the source relies only on the
plain-digits case). -/
def pyIntParse : List ℕ → Option ℕ := fun l =>
  if l ≠ [] ∧ l.all (fun c => 48 ≤ c ∧ c ≤ 57) then
    some (l.foldl (fun a c => 10 * a + (c - 48)) 0)
  else none

/-- Python `str(n)` for a natural number, as a code-point list. -/
def natStrAux : ℕ → ℕ → List ℕ
  | 0, n => [n % 10 + 48]
  | fuel + 1, n =>
    if n < 10 then [n + 48] else natStrAux fuel (n / 10) ++ [n % 10 + 48]

def natStr (n : ℕ) : List ℕ := natStrAux n n

/-- Hexadecimal digit test for `bytearray.fromhex`. -/
def isHexDigit (c : ℕ) : Bool :=
  (48 ≤ c ∧ c ≤ 57) ∨ (97 ≤ c ∧ c ≤ 102) ∨ (65 ≤ c ∧ c ≤ 70)

def hexVal (c : ℕ) : ℕ :=
  if c ≤ 57 then c - 48 else if c ≤ 70 then c - 55 else c - 87

/-- Python `bytearray.fromhex(s)`: pairs of hex digits with spaces permitted
between bytes; `none` models the `ValueError` branch (line 57) that makes
`Packet.__init__` fall back to `bytearray(map(ord, data))`. -/
def pyFromHex : List ℕ → Option (List ℕ)
  | [] => some []
  | c :: rest =>
    if c = 32 then pyFromHex rest
    else if isHexDigit c then
      match rest with
      | d :: rest2 =>
        if isHexDigit d then
          (pyFromHex rest2).map fun t => (16 * hexVal c + hexVal d) :: t
        else none
      | [] => none
    else none

/-- The `str` branch of `Packet.__init__`'s data conversion (lines 54–58):
try `bytearray.fromhex`, fall back to `bytearray(map(ord, data))` on
`ValueError`.  (The fallback is byte-faithful for the sub-0x100 code
points that reach it in the flows considered here.) -/
def pyStrToBytes (s : List ℕ) : List ℕ :=
  match pyFromHex s with
  | some bs => bs
  | none => s

/-! ## Encoder (lines 141–242)

The unit store is modelled positionally: the encoder returns the list of
data-unit frames, index `p` being the file `"<p>.qp"`, plus the
`"init.qp"` frame.  An error carries the data units already written when
it was raised. -/

/-- The body of `Encoder.encode`'s `while True` loop (lines 195–206)
together with `setLastPacket` (lines 239–242), recursing over the
77-byte chunks of the source file.  On exhaustion with no packet ever
built (`packetToBuild is None`), `setLastPacket(None)` evaluates
`None.op_code` and raises `AttributeError`; otherwise the last built
packet's `op_code` is rewritten to `0x7` and its unit re-persisted
(modelled by replacing the last frame of the accumulator). -/
def encodeUnitsAux (st : PacketState) (pid : ℕ) (prev : Option Packet)
    (acc : List (List ℕ)) :
    List (List ℕ) → Except (PyErr × List (List ℕ)) (List (List ℕ) × PacketState)
  | [] =>
    match prev with
    | none => .error (.attributeError, acc)
    | some p =>
      match build st.overflow { p with op_code := 0x7 } with
      | .ok f => .ok (acc.dropLast ++ [f], st)
      | .error e => .error (e, acc)
  | c :: cs =>
    match constructPacket st c pid 0x0 with
    | .ok (pkt, st1) =>
      match build st1.overflow pkt with
      | .ok f => encodeUnitsAux st1 (pid + 1) (some pkt) (acc ++ [f]) cs
      | .error e => .error (e, acc)
    | .error e => .error (e, acc)

/-- Embedding of `Encoder.encode` (lines 189–223) over an in-memory source byte list,
starting from pid 0. -/
def encodeUnits (st : PacketState) (src : List ℕ) :
    Except (PyErr × List (List ℕ)) (List (List ℕ) × PacketState) :=
  encodeUnitsAux st 0 none [] (chunks77 src)

/-- Derived description of the data units `encodeUnits` produces for a
non-empty chunk list: one frame per chunk with consecutive pids reduced
`% max_id`, op 0x0, except the last chunk whose frame carries op 0x7
(the `setLastPacket` rewrite). -/
def expUnits (pid : ℕ) : List (List ℕ) → List (List ℕ)
  | [] => []
  | [c] => [buildI 0 ⟨c, pid % max_id, 0x7⟩]
  | c :: c2 :: cs => buildI 0 ⟨c, pid % max_id, 0x0⟩ :: expUnits (pid + 1) (c2 :: cs)

/-- The metadata payload `" ".join([fileBaseName, str(packets_built),
str(getsize(file))])` of `Encoder.buildInitPacket` (lines 228–234). -/
def initInfoStr (name : List ℕ) (packets_built file_size : ℕ) : List ℕ :=
  name ++ 32 :: natStr packets_built ++ 32 :: natStr file_size

/-- Embedding of `Encoder.buildInitPacket` (lines 225–237):
`Packet(" ".join(info), 0, op_code=0x1).build()`.  The `str` data goes
through `Packet.__init__`'s conversion (`pyStrToBytes`). -/
def buildInitPacket (st : PacketState) (name : List ℕ)
    (packets_built file_size : ℕ) : Except PyErr (List ℕ × PacketState) :=
  match constructPacket st (pyStrToBytes (initInfoStr name packets_built file_size)) 0 0x1 with
  | .ok (pkt, st1) =>
    match build st1.overflow pkt with
    | .ok f => .ok (f, st1)
    | .error e => .error e
  | .error e => .error e

/-- Embedding of `Encoder.run` (lines 169–186): encode, then build the init packet.
`packets_built` is the loop variable `pid` at stream exhaustion, i.e. the
number of 77-byte chunks; `getsize` is the source length.  Only
`Warning` is caught there (returning `False`, not modelled as it cannot
arise without real I/O failures); every other exception propagates,
carried here with the data units written before it was raised. -/
def encoderRun (st : PacketState) (name src : List ℕ) :
    Except (PyErr × List (List ℕ)) (List (List ℕ) × List ℕ × PacketState) :=
  match encodeUnits st src with
  | .ok (units, st1) =>
    match buildInitPacket st1 name (chunks77 src).length src.length with
    | .ok (initF, st2) => .ok (units, initF, st2)
    | .error e => .error (e, units)
  | .error e => .error e

/-! ## Decoder (lines 244–451)

The packet store is a map `pid ↦ Option frame` (`"<pid>.qp"` present or
`FileNotFoundError`); the init unit is passed separately (`"init.qp"`). -/

/-- One decode of a data unit as in `bulkDecode` lines 335–342: slice the
payload region up to the end word, majority-vote it, `decode('utf-8')`. -/
def decodeUnit (frame : List ℕ) : Option (List ℕ) :=
  utf8Decode (resolveExpansion (extractInfo frame))

/-- The `while True` loop of `Decoder.bulkDecode` (lines 330–360), with
fuel for termination.  `scaffold` is the `scaffold_data` string (code
points), `missed` the `missedPackets` list.  A found unit is decoded and
amended into the scaffold; on `FileNotFoundError` the loop either records
a confirmed miss and amends a `'ÿ' * 77` placeholder (when the unit for
`pid + 1` exists — only that one is checked, cf. the TODO on line 346),
or flushes `bytearray(scaffold_data, 'utf-8')` to the scaffold file and
breaks.  Returns (bytes written to the scaffold file, missed pids). -/
def decoderBulkLoop (store : ℕ → Option (List ℕ)) :
    ℕ → ℕ → List ℕ → List ℕ → Except PyErr (List ℕ × List ℕ)
  | 0, _, _, _ => .error .outOfFuel
  | fuel + 1, pid, scaffold, missed =>
    match store pid with
    | some frame =>
      match decodeUnit frame with
      | some info =>
          decoderBulkLoop store fuel (pid + 1)
            (ammendScaffoldData scaffold info pid) missed
      | none => .error .unicodeDecodeError
    | none =>
      if (store (pid + 1)).isSome then
        decoderBulkLoop store fuel (pid + 1)
          (ammendScaffoldData scaffold (List.replicate data_size 0xFF) pid)
          (missed ++ [pid])
      else .ok (utf8Encode scaffold, missed)

/-- Embedding of `Decoder.init` / `readInit` (lines 292–310): majority-vote-decode the
init frame's payload region, `decode('utf-8')`, `split(' ')`, and parse
fields 1 and 2 as `expected_packets` and `file_size`. -/
def decoderInit (initFrame : List ℕ) : Except PyErr (List ℕ × ℕ × ℕ) :=
  match decodeUnit initFrame with
  | none => .error .unicodeDecodeError
  | some s =>
    let fields := pySplitSp s
    if 2 < fields.length then
      match pyIntParse (fields.getD 1 []), pyIntParse (fields.getD 2 []) with
      | some n, some sz => .ok (fields.getD 0 [], n, sz)
      | _, _ => .error .valueErrorInt
    else .error .indexError

/-- Embedding of `Decoder.run` for the bulk pass (lines 277–290 up to `bulkDecode`'s
return, plus `prepareFileLocation` and `buildScaffold`): read the init
unit, pre-size the scaffold file with `b' ' * file_size`, run the bulk
loop from pid 0 with empty scaffold, and on an empty `missedPackets`
promote the scaffold to the final file.  Returns
`(missedPackets or none, final/in-progress file content)`: the file is
the `file_size` spaces overwritten from offset 0 by the bytes the loop
flushed. -/
def decoderRun (store : ℕ → Option (List ℕ)) (initFrame : List ℕ) (fuel : ℕ) :
    Except PyErr (Option (List ℕ) × List ℕ) :=
  match decoderInit initFrame with
  | .error e => .error e
  | .ok (_, _, file_size) =>
    match decoderBulkLoop store fuel 0 [] [] with
    | .error e => .error e
    | .ok (written, missed) =>
      .ok (if missed = [] then none else some missed,
        written ++ (List.replicate file_size 32).drop written.length)

/-- Decidable equality of modelled Python results, for concrete
evaluations. -/
instance exceptDecEq {ε α : Type} [DecidableEq ε] [DecidableEq α] :
    DecidableEq (Except ε α) := fun x y =>
  match x, y with
  | .ok a, .ok b =>
    if h : a = b then isTrue (by rw [h])
    else isFalse (fun hc => h (by cases hc; rfl))
  | .error a, .error b =>
    if h : a = b then isTrue (by rw [h])
    else isFalse (fun hc => h (by cases hc; rfl))
  | .ok _, .error _ => isFalse (fun hc => Except.noConfusion hc)
  | .error _, .ok _ => isFalse (fun hc => Except.noConfusion hc)

/-! ## Lemmas: chunking and the scaffold -/

theorem chunks77Aux_mono (f1 : ℕ) : ∀ (f2 : ℕ) (l : List ℕ),
    l.length ≤ f1 → l.length ≤ f2 → chunks77Aux f1 l = chunks77Aux f2 l := by
  induction f1 with
  | zero =>
    intro f2 l h1 h2
    have : l = [] := List.eq_nil_of_length_eq_zero (by omega)
    subst this
    cases f2 <;> rfl
  | succ f1 ih =>
    intro f2 l h1 h2
    cases l with
    | nil => cases f2 <;> rfl
    | cons a t =>
      cases f2 with
      | zero => simp at h2
      | succ f2 =>
        rw [chunks77Aux, chunks77Aux]
        congr 1
        apply ih
        · simp only [List.length_drop]
          simp only [List.length_cons] at h1
          omega
        · simp only [List.length_drop]
          simp only [List.length_cons] at h2
          omega

theorem chunks77_cons (a : ℕ) (t : List ℕ) :
    chunks77 (a :: t) = (a :: t.take 76) :: chunks77 (t.drop 76) := by
  unfold chunks77
  rw [show (a :: t).length = t.length + 1 from by simp]
  rw [chunks77Aux]
  congr 1
  apply chunks77Aux_mono
  · simp only [List.length_drop]
    omega
  · simp only [List.length_drop]
    omega

theorem chunks77_bounded (n : ℕ) : ∀ (l : List ℕ), l.length ≤ n →
    ((chunks77 l).flatten = l ∧
      (chunks77 l).length = (l.length + 76) / 77 ∧
      ∀ c ∈ chunks77 l, c.length ≤ 77 ∧ c ≠ [] ∧ ∀ x ∈ c, x ∈ l) := by
  induction n with
  | zero =>
    intro l h
    have : l = [] := List.eq_nil_of_length_eq_zero (by omega)
    subst this
    refine ⟨rfl, by decide, by simp [chunks77, chunks77Aux]⟩
  | succ n ih =>
    intro l h
    cases l with
    | nil => refine ⟨rfl, by decide, by simp [chunks77, chunks77Aux]⟩
    | cons a t =>
      rw [chunks77_cons]
      obtain ⟨ihf, ihl, ihm⟩ := ih (t.drop 76) (by
        simp only [List.length_drop]
        simp only [List.length_cons] at h
        omega)
      refine ⟨?_, ?_, ?_⟩
      · simp only [List.flatten_cons, ihf]
        simp [List.take_append_drop]
      · simp only [List.length_cons, ihl]
        simp only [List.length_drop, List.length_cons]
        omega
      · intro c hc
        rcases List.mem_cons.mp hc with rfl | hc
        · refine ⟨by simp only [List.length_cons, List.length_take]; omega,
            by simp, ?_⟩
          intro x hx
          rcases List.mem_cons.mp hx with rfl | hx
          · simp
          · exact List.mem_cons_of_mem a (List.mem_of_mem_take hx)
        · obtain ⟨hc1, hc2, hc3⟩ := ihm c hc
          exact ⟨hc1, hc2, fun x hx =>
            List.mem_cons_of_mem a (List.mem_of_mem_drop (hc3 x hx))⟩

theorem flatten_chunks77 (l : List ℕ) : (chunks77 l).flatten = l :=
  (chunks77_bounded l.length l le_rfl).1

theorem length_chunks77 (l : List ℕ) :
    (chunks77 l).length = (l.length + 76) / 77 :=
  (chunks77_bounded l.length l le_rfl).2.1

theorem mem_chunks77 (l : List ℕ) (c : List ℕ) (hc : c ∈ chunks77 l) :
    c.length ≤ 77 ∧ c ≠ [] ∧ ∀ x ∈ c, x ∈ l :=
  (chunks77_bounded l.length l le_rfl).2.2 c hc

theorem chunks77_getElem (n : ℕ) : ∀ (l : List ℕ) (i : ℕ), l.length ≤ n →
    i < (chunks77 l).length →
    (chunks77 l).getD i [] = (l.drop (77 * i)).take 77 := by
  induction n with
  | zero =>
    intro l i h hi
    have : l = [] := List.eq_nil_of_length_eq_zero (by omega)
    subst this
    simp [chunks77, chunks77Aux] at hi
  | succ n ih =>
    intro l i h hi
    cases l with
    | nil => simp [chunks77, chunks77Aux] at hi
    | cons a t =>
      rw [chunks77_cons]
      cases i with
      | zero => simp [List.getD]
      | succ i =>
        rw [chunks77_cons] at hi
        simp only [List.length_cons] at hi
        have hrec := ih (t.drop 76) i (by
          simp only [List.length_drop]
          simp only [List.length_cons] at h
          omega) (by omega)
        simp only [List.getD_cons_succ]
        rw [hrec, List.drop_drop]
        have h2 : (a :: t).drop (77 * (i + 1)) = t.drop (77 * i + 76) := by
          rw [show 77 * (i + 1) = (77 * i + 76) + 1 from by omega]
          rfl
        rw [h2, show 76 + 77 * i = 77 * i + 76 from by omega]

/-- Appending at the end of a scaffold whose length is an exact multiple
of the chunk size: `ammendScaffoldData s t p = s ++ t` when
`s.length = 77 * p`. -/
theorem ammend_append (s t : List ℕ) (p : ℕ) (hs : s.length = 77 * p) :
    ammendScaffoldData s t p = s ++ t := by
  simp only [ammendScaffoldData]
  have hlen : (chunks77 s).length = p := by
    rw [length_chunks77, hs]
    omega
  rw [hlen, if_neg (by omega)]
  rw [List.flatten_append]
  rw [flatten_chunks77]
  simp

/-! ## Lemmas: UTF-8 on ASCII -/

theorem utf8DecodeOne_ascii (b : ℕ) (t : List ℕ) (hb : b < 0x80) :
    utf8DecodeOne (b :: t) = some (b, t) := by
  unfold utf8DecodeOne
  dsimp only
  rw [if_pos hb]

theorem utf8DecodeAux_ascii (fuel : ℕ) : ∀ (l : List ℕ), l.length ≤ fuel →
    (∀ b ∈ l, b < 0x80) → utf8DecodeAux fuel l = some l := by
  induction fuel with
  | zero =>
    intro l hl h
    have : l = [] := List.eq_nil_of_length_eq_zero (by omega)
    subst this
    rfl
  | succ fuel ih =>
    intro l hl h
    cases l with
    | nil => rfl
    | cons b t =>
      rw [utf8DecodeAux, utf8DecodeOne_ascii b t (h b (List.mem_cons_self b t))]
      dsimp only
      rw [ih t (by simp at hl; omega) fun x hx => h x (List.mem_cons_of_mem b hx)]
      rfl

theorem utf8Decode_ascii (l : List ℕ) (h : ∀ b ∈ l, b < 0x80) :
    utf8Decode l = some l :=
  utf8DecodeAux_ascii l.length l le_rfl h

theorem utf8Encode_ascii (l : List ℕ) (h : ∀ c ∈ l, c < 0x80) :
    utf8Encode l = l := by
  induction l with
  | nil => rfl
  | cons c t ih =>
    unfold utf8Encode at ih ⊢
    simp only [List.map_cons, List.flatten_cons]
    rw [ih fun x hx => h x (by simp [hx])]
    rw [utf8EncodeChar, if_pos (h c (by simp))]
    rfl

/-! ## Lemmas: decimal strings, split, fromhex -/

theorem natStrAux_zero (k : ℕ) : natStrAux k 0 = [48] := by
  cases k with
  | zero => rfl
  | succ k => rfl

theorem natStrAux_mono (f1 : ℕ) : ∀ (f2 n : ℕ), n ≤ f1 → n ≤ f2 →
    natStrAux f1 n = natStrAux f2 n := by
  induction f1 with
  | zero =>
    intro f2 n h1 h2
    have : n = 0 := by omega
    subst this
    rw [natStrAux_zero, natStrAux_zero]
  | succ f1 ih =>
    intro f2 n h1 h2
    cases f2 with
    | zero =>
      have : n = 0 := by omega
      subst this
      rw [natStrAux_zero, natStrAux_zero]
    | succ f2 =>
      rw [natStrAux, natStrAux]
      by_cases hn : n < 10
      · rw [if_pos hn, if_pos hn]
      · rw [if_neg hn, if_neg hn]
        rw [ih f2 (n / 10) (by omega) (by omega)]

theorem natStr_unfold (n : ℕ) :
    natStr n = if n < 10 then [n + 48]
      else natStr (n / 10) ++ [n % 10 + 48] := by
  unfold natStr
  by_cases hn : n < 10
  · rw [if_pos hn]
    cases n with
    | zero => rfl
    | succ m =>
      rw [natStrAux, if_pos hn]
  · rw [if_neg hn]
    cases n with
    | zero => omega
    | succ m =>
      rw [natStrAux, if_neg hn]
      congr 1
      exact natStrAux_mono m ((m + 1) / 10) ((m + 1) / 10) (by omega) le_rfl

theorem natStr_digits (n : ℕ) : ∀ c ∈ natStr n, 48 ≤ c ∧ c ≤ 57 := by
  induction n using Nat.strong_induction_on with
  | _ n ih =>
    rw [natStr_unfold]
    by_cases hn : n < 10
    · rw [if_pos hn]
      intro c hc
      simp at hc
      omega
    · rw [if_neg hn]
      intro c hc
      rcases List.mem_append.mp hc with hc | hc
      · exact ih (n / 10) (by omega) c hc
      · simp at hc

        omega

theorem natStr_foldl (n : ℕ) :
    (natStr n).foldl (fun a c => 10 * a + (c - 48)) 0 = n := by
  induction n using Nat.strong_induction_on with
  | _ n ih =>
    rw [natStr_unfold]
    by_cases hn : n < 10
    · rw [if_pos hn]
      simp only [List.foldl]
      omega
    · rw [if_neg hn]
      rw [List.foldl_append]
      rw [ih (n / 10) (by omega)]
      simp only [List.foldl]
      omega

theorem pyIntParse_natStr (n : ℕ) : pyIntParse (natStr n) = some n := by
  have hdig := natStr_digits n
  have hne : natStr n ≠ [] := by
    rw [natStr_unfold]
    split <;> simp
  have hcond : natStr n ≠ [] ∧
      (natStr n).all (fun c => decide (48 ≤ c ∧ c ≤ 57)) = true := by
    refine ⟨hne, ?_⟩
    rw [List.all_eq_true]
    intro c hc
    have := hdig c hc
    simp
    omega
  unfold pyIntParse
  rw [if_pos hcond, natStr_foldl]

theorem natStr_no_space (n : ℕ) : 32 ∉ natStr n := by
  intro h
  have := natStr_digits n 32 h
  omega

theorem pySplitSp_nospace (l : List ℕ) (h : 32 ∉ l) : pySplitSp l = [l] := by
  induction l with
  | nil => rfl
  | cons c t ih =>
    rw [pySplitSp]
    rw [if_neg (by intro hc; exact h (by simp [hc]))]
    rw [ih (by intro hc; exact h (by simp [hc]))]

theorem pySplitSp_append (x y : List ℕ) (hx : 32 ∉ x) :
    pySplitSp (x ++ 32 :: y) = x :: pySplitSp y := by
  induction x with
  | nil =>
    rw [List.nil_append, pySplitSp, if_pos rfl]
  | cons c t ih =>
    rw [List.cons_append, pySplitSp]
    rw [if_neg (by intro hc; exact hx (by simp [hc]))]
    rw [ih (by intro hc; exact hx (by simp [hc]))]

theorem pyFromHex_chars (s : List ℕ) : ∀ bs, pyFromHex s = some bs →
    ∀ c ∈ s, isHexDigit c = true ∨ c = 32 := by
  induction s using pyFromHex.induct with
  | case1 =>
    intro bs h c hc
    simp at hc
  | case2 rest ih =>
    intro bs h c hc
    rw [pyFromHex.eq_def] at h
    dsimp only at h
    rw [if_pos rfl] at h
    rcases List.mem_cons.mp hc with rfl | hc
    · right
      rfl
    · exact ih bs h c hc
  | case3 b hb32 hhexb b1 rest1 hhexb1 ih =>
    intro bs h c hc
    rw [pyFromHex.eq_def] at h
    dsimp only at h
    rw [if_neg hb32, if_pos hhexb, if_pos hhexb1] at h
    rcases List.mem_cons.mp hc with rfl | hc
    · exact Or.inl hhexb
    · rcases List.mem_cons.mp hc with rfl | hc
      · exact Or.inl hhexb1
      · cases hfh : pyFromHex rest1 with
        | none =>
          rw [hfh] at h
          exact Option.noConfusion h
        | some bs2 => exact ih bs2 hfh c hc
  | case4 b hb32 hhexb b1 rest1 hb1 =>
    intro bs h c hc
    rw [pyFromHex.eq_def] at h
    dsimp only at h
    rw [if_neg hb32, if_pos hhexb, if_neg hb1] at h
    exact Option.noConfusion h
  | case5 b hb32 hhexb =>
    intro bs h c hc
    rw [pyFromHex.eq_def] at h
    dsimp only at h
    rw [if_neg hb32, if_pos hhexb] at h
    exact Option.noConfusion h
  | case6 b rest hb32 hhexb =>
    intro bs h c hc
    rw [pyFromHex.eq_def] at h
    dsimp only at h
    rw [if_neg hb32, if_neg hhexb] at h
    exact Option.noConfusion h

theorem pyStrToBytes_of_badchar (s : List ℕ)
    (h : ∃ c ∈ s, isHexDigit c = false ∧ c ≠ 32) : pyStrToBytes s = s := by
  unfold pyStrToBytes
  cases hfh : pyFromHex s with
  | none => rfl
  | some bs =>
    obtain ⟨c, hc, hbad, hcsp⟩ := h
    rcases pyFromHex_chars s bs hfh c hc with hh | hh
    · rw [hbad] at hh
      exact Bool.noConfusion hh
    · exact absurd hh hcsp

/-! ## Lemmas: encoder on the empty source -/

/-- C10: for a source file of length 0, `Encoder.encode` reads no data
on its first iteration and calls `setLastPacket(None)`, whose
`None.op_code = 0x7` raises `AttributeError`; neither `encode` (which
catches only `FileNotFoundError`/`OSError`) nor `run` (which catches
only `Warning`) handles it, so the run writes no data unit, never
reaches `buildInitPacket`, and does not return the documented `False`
result — here: the error propagates carrying an empty list of written
units. -/
theorem encode_empty_source (name : List ℕ) :
    encoderRun initState name [] = .error (.attributeError, []) := rfl

theorem encode_empty_source_witness :
    encoderRun initState [102] [] = .error (.attributeError, []) :=
  encode_empty_source [102]

/-! ## Lemmas: bulk-decode gap handling -/

theorem bulkLoop_missed_mono (store : ℕ → Option (List ℕ))
    (fuel : ℕ) : ∀ (pid : ℕ) (s m out led : List ℕ),
    decoderBulkLoop store fuel pid s m = .ok (out, led) → ∀ x ∈ m, x ∈ led := by
  induction fuel with
  | zero => intro pid s m out led h; exact Except.noConfusion h
  | succ fuel ih =>
    intro pid s m out led h
    rw [decoderBulkLoop] at h
    split at h
    · split at h
      · exact ih _ _ _ _ _ h
      · exact Except.noConfusion h
    · split at h
      · intro x hx
        exact ih _ _ _ _ _ h x (by simp [hx])
      · injection h with h'
        injection h' with h1 h2
        intro x hx
        rw [← h2]
        exact hx

/-- C4 (amended): during the bulk pass, an absent unit at `pid` is a
confirmed miss exactly when the unit for the *immediately next* pid
`pid + 1` is present (only that one is checked — cf. the source's TODO
"what if two packets were lost"): then `pid` is appended to the ledger,
its scaffold slot is filled with the `'ÿ' * 77` placeholder, and `pid`
is in the ledger the pass finally returns.  When the unit for `pid + 1`
is also absent the pass flushes the scaffold and stops — even if units
with later pids exist. -/
theorem bulk_gap_next_pid (store : ℕ → Option (List ℕ)) (fuel pid : ℕ)
    (s m out led : List ℕ)
    (habs : store pid = none) :
    ((store (pid + 1)).isSome = true →
      decoderBulkLoop store (fuel + 1) pid s m =
        decoderBulkLoop store fuel (pid + 1)
          (ammendScaffoldData s (List.replicate data_size 0xFF) pid)
          (m ++ [pid]) ∧
      (decoderBulkLoop store (fuel + 1) pid s m = .ok (out, led) →
        pid ∈ led)) ∧
    (store (pid + 1) = none →
      decoderBulkLoop store (fuel + 1) pid s m = .ok (utf8Encode s, m)) := by
  constructor
  · intro hnext
    have hstep : decoderBulkLoop store (fuel + 1) pid s m =
        decoderBulkLoop store fuel (pid + 1)
          (ammendScaffoldData s (List.replicate data_size 0xFF) pid)
          (m ++ [pid]) := by
      rw [decoderBulkLoop, habs, if_pos hnext]
    refine ⟨hstep, ?_⟩
    intro hok
    rw [hstep] at hok
    exact bulkLoop_missed_mono store fuel _ _ _ _ _ hok pid (by simp)
  · intro hnext
    rw [decoderBulkLoop, habs, if_neg (by rw [hnext]; simp)]

theorem bulk_gap_next_pid_witness :
    ((fun p => if p = 1 then some (buildI 0 ⟨[0x42], 1, 0x0⟩)
        else none) 0 = none) ∧
    (((fun p => if p = 1 then some (buildI 0 ⟨[0x42], 1, 0x0⟩)
          else none) 1).isSome = true →
      decoderBulkLoop (fun p => if p = 1 then some (buildI 0 ⟨[0x42], 1, 0x0⟩)
          else none) 3 0 [] [] =
        decoderBulkLoop (fun p => if p = 1 then some (buildI 0 ⟨[0x42], 1, 0x0⟩)
            else none) 2 1
          (ammendScaffoldData [] (List.replicate data_size 0xFF) 0) ([] ++ [0]) ∧
      (decoderBulkLoop (fun p => if p = 1 then some (buildI 0 ⟨[0x42], 1, 0x0⟩)
          else none) 3 0 [] [] =
        .ok (utf8Encode (List.replicate data_size 0xFF ++ [0x42]), [0]) →
        0 ∈ [0])) ∧
    ((fun p => if p = 1 then some (buildI 0 ⟨[0x42], 1, 0x0⟩)
        else none) 1 = none →
      decoderBulkLoop (fun p => if p = 1 then some (buildI 0 ⟨[0x42], 1, 0x0⟩)
          else none) 3 0 [] [] = .ok (utf8Encode [], [])) :=
  ⟨by decide,
    bulk_gap_next_pid (fun p => if p = 1 then some (buildI 0 ⟨[0x42], 1, 0x0⟩)
      else none) 2 0 [] []
      (utf8Encode (List.replicate data_size 0xFF ++ [0x42])) [0] (by decide)⟩

/-- C4 counterexample: with units present only for pids 0 and 3 (a gap
of two), the pass reaches the absent pid 1, checks only pid 2 (also
absent), and treats the situation as end-of-stream: it flushes the
scaffold and stops with an *empty* ledger, although a unit with the
later pid 3 exists — contradicting the claim that every absent pid with
some later unit present is recorded, and that end-of-stream is declared
only when no later unit exists. -/
theorem bulk_gap_cex :
    ((fun p => if p = 0 then some (buildI 0 ⟨[0x41], 0, 0x7⟩)
        else if p = 3 then some (buildI 0 ⟨[0x42], 3, 0x0⟩) else none) 3
      ≠ (none : Option (List ℕ))) ∧
    decoderBulkLoop
        (fun p => if p = 0 then some (buildI 0 ⟨[0x41], 0, 0x7⟩)
          else if p = 3 then some (buildI 0 ⟨[0x42], 3, 0x0⟩) else none)
        5 0 [] [] = .ok ([0x41], []) ∧
    (1 : ℕ) ∉ ([] : List ℕ) := by
  refine ⟨by decide, by decide, by decide⟩

/-! ## Lemmas: majority vote -/

theorem majority3_self (a : ℕ) : majority3 a a a = a := by
  simp [majority3]

theorem majority3_of_two (a b c v : ℕ)
    (h : (a = v ∧ b = v) ∨ (a = v ∧ c = v) ∨ (b = v ∧ c = v)) :
    majority3 a b c = v := by
  unfold majority3
  rcases h with ⟨h1, h2⟩ | ⟨h1, h2⟩ | ⟨h1, h2⟩ <;> subst h1 <;> subst h2 <;>
    split <;> simp_all

theorem map_range_getD (l : List ℕ) :
    (List.range l.length).map (fun i => l.getD i 0) = l := by
  apply List.ext_getElem
  · simp
  · intro i h1 h2
    simp [List.getD_eq_getElem?_getD, List.getElem?_eq_getElem h2]

theorem length_triple (d : List ℕ) : (d ++ d ++ d).length = 3 * d.length := by
  simp; omega

theorem getD_triple (d : List ℕ) (i : ℕ) (hi : i < d.length) :
    (d ++ d ++ d).getD i 0 = d.getD i 0 ∧
    (d ++ d ++ d).getD (i + d.length) 0 = d.getD i 0 ∧
    (d ++ d ++ d).getD (i + 2 * d.length) 0 = d.getD i 0 := by
  refine ⟨?_, ?_, ?_⟩
  · simp only [List.getD_eq_getElem?_getD]
    rw [List.getElem?_append_left (by simp; omega),
      List.getElem?_append_left hi]
  · simp only [List.getD_eq_getElem?_getD]
    rw [List.getElem?_append_left (by simp; omega),
      List.getElem?_append_right (by omega)]
    simp
  · simp only [List.getD_eq_getElem?_getD]
    rw [List.getElem?_append_right (by simp; omega)]
    have h2 : i + 2 * d.length - (d ++ d).length = i := by simp; omega
    rw [h2]

/-- Lemma: `resolveExpansion` inverts the exact triple expansion `d * 3`. -/
theorem resolveExpansion_triple (d : List ℕ) :
    resolveExpansion (d ++ d ++ d) = d := by
  unfold resolveExpansion
  rw [length_triple, Nat.mul_div_cancel_left _ (by omega)]
  calc (List.range d.length).map (fun i =>
          majority3 ((d ++ d ++ d).getD i 0) ((d ++ d ++ d).getD (i + d.length) 0)
            ((d ++ d ++ d).getD (i + 2 * d.length) 0))
      = (List.range d.length).map (fun i => d.getD i 0) := by
        apply List.map_congr_left
        intro i hi
        rw [List.mem_range] at hi
        obtain ⟨h1, h2, h3⟩ := getD_triple d i hi
        rw [h1, h2, h3, majority3_self]
    _ = d := map_range_getD d

/-! ## Lemmas: end-word search -/

theorem findPair_cons_eq (a : ℕ) (l : List ℕ)
    (h : ¬(a = 0xDC ∧ l.head? = some 0xBA)) :
    findPair (a :: l) = (findPair l).map (· + 1) := by
  cases l with
  | nil => rfl
  | cons b t =>
    rw [findPair, if_neg]
    intro ⟨h1, h2⟩
    exact h ⟨h1, by simp [h2]⟩

theorem hasPair_cons_false_iff (a : ℕ) (l : List ℕ) :
    hasPair (a :: l) = false ↔
      ¬(a = 0xDC ∧ l.head? = some 0xBA) ∧ hasPair l = false := by
  cases l with
  | nil => simp [hasPair, findPair]
  | cons b t =>
    unfold hasPair
    rw [findPair]
    split
    · rename_i hp
      simp [hp]
    · rename_i hp
      cases hf : findPair (b :: t) <;> simp [hp, hf]

theorem hasPair_cons_of (a : ℕ) (l : List ℕ)
    (h : ¬(a = 0xDC ∧ l.head? = some 0xBA)) (h2 : hasPair l = false) :
    hasPair (a :: l) = false :=
  (hasPair_cons_false_iff a l).mpr ⟨h, h2⟩

theorem hasPair_cons_of_ne (a : ℕ) (l : List ℕ) (h : a ≠ 0xDC)
    (h2 : hasPair l = false) : hasPair (a :: l) = false :=
  hasPair_cons_of a l (fun hc => h hc.1) h2

theorem hasPair_cons_cons_of (a b : ℕ) (l : List ℕ)
    (h : ¬(a = 0xDC ∧ b = 0xBA)) (h2 : hasPair (b :: l) = false) :
    hasPair (a :: b :: l) = false :=
  hasPair_cons_of a (b :: l) (by simpa using h) h2

theorem hasPair_append_sing (l : List ℕ) (z : ℕ)
    (h : ∀ x ∈ l, x ≠ 0xDC) : hasPair (l ++ [z]) = false := by
  induction l with
  | nil => simp [hasPair, findPair]
  | cons a t ih =>
    exact hasPair_cons_of_ne a _ (h a (by simp))
      (ih fun x hx => h x (by simp [hx]))

theorem head?_append_take1 (l suf : List ℕ) :
    (l ++ suf.take 1).head? = (l ++ suf).head? := by
  cases l with
  | nil => cases suf <;> simp
  | cons a t => simp

theorem findPair_append (pre suf : List ℕ)
    (h : hasPair (pre ++ suf.take 1) = false) :
    findPair (pre ++ suf) = (findPair suf).map (· + pre.length) := by
  induction pre with
  | nil =>
    cases hf : findPair suf <;> simp [hf]
  | cons a pre' ih =>
    obtain ⟨h1, h2⟩ := (hasPair_cons_false_iff a _).mp h
    simp only [List.append_eq] at h1 h2
    rw [head?_append_take1] at h1
    rw [List.cons_append, findPair_cons_eq a _ h1, ih h2]
    cases hf : findPair suf <;> simp [hf] <;> omega

/-! ## Lemmas: frame structure and payload extraction -/

theorem toBytes2_endW : toBytes2 endW = [0xDC, 0xBA] := by decide

theorem toBytes2_syncW : toBytes2 syncW = [0xFF, 0xFF] := by decide

theorem toBytes2_startW : toBytes2 startW = [0xAB, 0xCD] := by decide

theorem length_buildHeaderI (ovb : ℕ) (p : Packet) :
    (buildHeaderI ovb p).length = 19 := by
  simp [buildHeaderI, toBytes2, toBytes4]

theorem length_pre (ovb : ℕ) (p : Packet) :
    (buildHeaderI ovb p ++ (p.data ++ p.data ++ p.data)).length =
      19 + 3 * p.data.length := by
  simp [length_buildHeaderI]
  omega

theorem buildI_decomp (ovb : ℕ) (p : Packet) :
    buildI ovb p =
      (buildHeaderI ovb p ++ (p.data ++ p.data ++ p.data)) ++
        (0xDC :: 0xBA :: 0xFF :: 0xFF ::
          List.replicate (max_size - (23 + 3 * p.data.length)) 0xFF) := by
  have hlen : (buildHeaderI ovb p ++ buildData p ++ buildFooter).length =
      23 + 3 * p.data.length := by
    simp [length_buildHeaderI, buildData, buildFooter, toBytes2]
    omega
  simp only [buildI]
  rw [hlen]
  simp only [buildData, buildFooter, toBytes2_endW, toBytes2_syncW]
  simp [List.append_assoc]

theorem take_pre_buildI (ovb : ℕ) (p : Packet) :
    (buildI ovb p).take (19 + 3 * p.data.length + 1) =
      (buildHeaderI ovb p ++ (p.data ++ p.data ++ p.data)) ++ [0xDC] := by
  rw [buildI_decomp]
  rw [show 19 + 3 * p.data.length + 1 =
    (buildHeaderI ovb p ++ (p.data ++ p.data ++ p.data)).length + 1 by
      rw [length_pre]]
  rw [List.take_append_eq_append_take]
  congr 1
  · exact List.take_of_length_le (by omega)
  · simp

theorem findPair_buildI (ovb : ℕ) (p : Packet)
    (hclean : hasPair ((buildI ovb p).take (19 + 3 * p.data.length + 1)) = false) :
    findPair (buildI ovb p) = some (19 + 3 * p.data.length) := by
  rw [take_pre_buildI] at hclean
  rw [buildI_decomp]
  have hfp : findPair (0xDC :: 0xBA :: 0xFF :: 0xFF ::
      List.replicate (max_size - (23 + 3 * p.data.length)) 0xFF) = some 0 := by
    rw [findPair, if_pos ⟨rfl, rfl⟩]
  rw [findPair_append _ _ (by simpa using hclean), hfp, length_pre]
  simp

theorem extractInfo_buildI (ovb : ℕ) (p : Packet)
    (hclean : hasPair ((buildI ovb p).take (19 + 3 * p.data.length + 1)) = false) :
    extractInfo (buildI ovb p) = p.data ++ p.data ++ p.data := by
  unfold extractInfo
  rw [findPair_buildI ovb p hclean]
  dsimp only
  have h1 : 19 + 3 * p.data.length - 19 = 3 * p.data.length := by omega
  rw [h1, buildI_decomp, List.append_assoc]
  rw [show (19 : ℕ) = (buildHeaderI ovb p).length from
    (length_buildHeaderI ovb p).symm]
  rw [List.drop_left]
  have h2 : (p.data ++ p.data ++ p.data).length = 3 * p.data.length := by
    simp
    omega
  rw [List.take_append_eq_append_take, List.take_of_length_le (by omega), h2]
  simp

theorem decodeUnit_buildI (ovb : ℕ) (p : Packet)
    (hclean : hasPair ((buildI ovb p).take (19 + 3 * p.data.length + 1)) = false) :
    decodeUnit (buildI ovb p) = utf8Decode p.data := by
  unfold decodeUnit
  rw [extractInfo_buildI ovb p hclean, resolveExpansion_triple]

theorem hasPair_quad (a b c d : ℕ) (h : hasPair [a, b, c, d] = false) :
    ¬(a = 0xDC ∧ b = 0xBA) ∧ ¬(b = 0xDC ∧ c = 0xBA) ∧
      ¬(c = 0xDC ∧ d = 0xBA) := by
  rw [hasPair_cons_false_iff] at h
  obtain ⟨h1, h⟩ := h
  rw [hasPair_cons_false_iff] at h
  obtain ⟨h2, h⟩ := h
  rw [hasPair_cons_false_iff] at h
  obtain ⟨h3, _⟩ := h
  exact ⟨by simpa using h1, by simpa using h2, by simpa using h3⟩

/-- If the payload bytes are all ASCII (`< 0x80`), the pid's byte
encoding is clean, and the flags byte is neither end-word byte, then the
frame contains no end-word pair before the footer. -/
theorem hasPair_prefix_buildI (ovb : ℕ) (p : Packet)
    (hdata : ∀ x ∈ p.data, x < 0x80)
    (hpid : pidClean p.pid)
    (hfl1 : flagsByte ovb p.op_code ≠ 0xBA)
    (hfl2 : flagsByte ovb p.op_code ≠ 0xDC) :
    hasPair ((buildI ovb p).take (19 + 3 * p.data.length + 1)) = false := by
  rw [take_pre_buildI, List.append_assoc]
  unfold pidClean at hpid
  rw [show toBytes4 p.pid = [p.pid / 2 ^ 24 % 256, p.pid / 2 ^ 16 % 256,
    p.pid / 2 ^ 8 % 256, p.pid % 256] from rfl] at hpid
  obtain ⟨h01, h12, h23⟩ := hasPair_quad _ _ _ _ hpid
  have htail : hasPair (p.data ++ (p.data ++ (p.data ++ [0xDC]))) = false := by
    have hs : hasPair ((p.data ++ p.data ++ p.data) ++ [0xDC]) = false := by
      apply hasPair_append_sing
      intro x hx
      have hx80 : x < 0x80 := by
        simp only [List.mem_append] at hx
        rcases hx with (hx | hx) | hx <;> exact hdata x hx
      omega
    simpa [List.append_assoc] using hs
  have h3fl : ¬(p.pid % 256 = 0xDC ∧ flagsByte ovb p.op_code = 0xBA) :=
    fun hc => hfl1 hc.2
  simp only [buildHeaderI, toBytes2_syncW, toBytes2_startW, toBytes4,
    List.cons_append, List.nil_append, List.append_assoc]
  refine hasPair_cons_of_ne _ _ (by decide) ?_
  refine hasPair_cons_of_ne _ _ (by decide) ?_
  refine hasPair_cons_of_ne _ _ (by decide) ?_
  refine hasPair_cons_of_ne _ _ (by decide) ?_
  refine hasPair_cons_cons_of _ _ _ h01 ?_
  refine hasPair_cons_cons_of _ _ _ h12 ?_
  refine hasPair_cons_cons_of _ _ _ h23 ?_
  refine hasPair_cons_cons_of _ _ _ h3fl ?_
  refine hasPair_cons_of_ne _ _ hfl2 ?_
  refine hasPair_cons_cons_of _ _ _ h01 ?_
  refine hasPair_cons_cons_of _ _ _ h12 ?_
  refine hasPair_cons_cons_of _ _ _ h23 ?_
  refine hasPair_cons_cons_of _ _ _ h3fl ?_
  refine hasPair_cons_of_ne _ _ hfl2 ?_
  refine hasPair_cons_cons_of _ _ _ h01 ?_
  refine hasPair_cons_cons_of _ _ _ h12 ?_
  refine hasPair_cons_cons_of _ _ _ h23 ?_
  refine hasPair_cons_cons_of _ _ _ h3fl ?_
  refine hasPair_cons_of_ne _ _ hfl2 ?_
  exact htail

/-! ## Lemmas: header recovery -/

theorem headerTail_buildI (ovb : ℕ) (p : Packet) :
    ((buildI ovb p).drop 4).take 15 =
      (toBytes4 p.pid ++ [flagsByte ovb p.op_code]) ++
        ((toBytes4 p.pid ++ [flagsByte ovb p.op_code]) ++
          (toBytes4 p.pid ++ [flagsByte ovb p.op_code])) := by
  have hform : buildI ovb p =
      (toBytes2 syncW ++ toBytes2 startW) ++
        (((toBytes4 p.pid ++ [flagsByte ovb p.op_code]) ++
          ((toBytes4 p.pid ++ [flagsByte ovb p.op_code]) ++
            (toBytes4 p.pid ++ [flagsByte ovb p.op_code]))) ++
          ((p.data ++ p.data ++ p.data) ++
            (0xDC :: 0xBA :: 0xFF :: 0xFF ::
              List.replicate (max_size - (23 + 3 * p.data.length)) 0xFF))) := by
    rw [buildI_decomp]
    simp [buildHeaderI, List.append_assoc]
  rw [hform]
  rw [show (4 : ℕ) = (toBytes2 syncW ++ toBytes2 startW).length from rfl]
  rw [List.drop_left]
  rw [show (15 : ℕ) = ((toBytes4 p.pid ++ [flagsByte ovb p.op_code]) ++
      ((toBytes4 p.pid ++ [flagsByte ovb p.op_code]) ++
        (toBytes4 p.pid ++ [flagsByte ovb p.op_code]))).length from by
    simp [toBytes4]]
  rw [← List.append_assoc]
  rw [List.take_left]

theorem fromBytes4_toBytes4_append (n fl : ℕ) (h : n < 2 ^ 32) :
    fromBytes4 (toBytes4 n ++ [fl]) = n := by
  unfold fromBytes4 toBytes4
  simp [List.getD]
  omega

theorem getD4_toBytes4_append (n fl : ℕ) :
    (toBytes4 n ++ [fl]).getD 4 0 = fl := by
  unfold toBytes4
  simp [List.getD]

theorem flags_recover (ovb op : ℕ) (hov : ovb < 2) (hop : op < 8) :
    flagsByte ovb op >>> 7 &&& 1 = ovb ∧ flagsByte ovb op >>> 4 &&& 7 = op := by
  interval_cases ovb <;> interval_cases op <;> decide

/-- Full-frame deserialization of a built frame: header fields by
majority vote, payload by end-word-bounded majority vote, provided the
frame is free of premature end-word pairs. -/
theorem deserializeFrame_buildI (ovb : ℕ) (p : Packet)
    (hclean : hasPair ((buildI ovb p).take (19 + 3 * p.data.length + 1)) = false)
    (hov : ovb < 2) (hop : p.op_code < 8) (hpid : p.pid < 2 ^ 32) :
    deserializeFrame (buildI ovb p) = (p.data, p.pid, p.op_code) := by
  obtain ⟨hf1, hf2⟩ := flags_recover ovb p.op_code hov hop
  unfold deserializeFrame
  rw [headerTail_buildI, ← List.append_assoc, resolveExpansion_triple]
  unfold decipherHeader
  rw [extractInfo_buildI ovb p hclean, resolveExpansion_triple,
    fromBytes4_toBytes4_append _ _ hpid, getD4_toBytes4_append, hf2]

/-! ## Lemmas: packet construction -/

theorem constructPacket_data_ok (st : PacketState) (data : List ℕ) (pid : ℤ)
    (hpos : 0 ≤ pid) (hlen : data.length ≤ data_size) (hle : pid ≤ (max_id : ℤ)) :
    constructPacket st data pid 0x0 =
      .ok (⟨data, (pid % (max_id : ℤ)).toNat, 0x0⟩, ⟨pid, st.overflow⟩) := by
  unfold constructPacket
  rw [if_neg (by omega), if_pos hlen, if_pos (Or.inl rfl)]
  simp [if_neg (by omega : ¬pid > (max_id : ℤ))]

theorem constructPacket_ok_fields (st st1 : PacketState) (data : List ℕ)
    (pid : ℤ) (op : ℕ) (pkt : Packet)
    (hc : constructPacket st data pid op = .ok (pkt, st1)) :
    pkt.data = data ∧ pkt.op_code = op ∧ data.length ≤ data_size := by
  unfold constructPacket at hc
  split_ifs at hc
  all_goals
    first
      | exact Except.noConfusion hc
      | (injection hc with h'
         injection h' with ha hb
         exact ⟨by rw [← ha], by rw [← ha], by assumption⟩)

/-! ## Lemmas: the encoder's unit production -/

theorem build_zero (p : Packet) : build 0 p = .ok (buildI 0 p) := by
  unfold build
  norm_num

theorem toNat_int_mod (p : ℕ) :
    (((p : ℤ)) % ((max_id : ℕ) : ℤ)).toNat = p % max_id := by
  have hm : ((max_id : ℕ) : ℤ) = 4294967295 := by norm_num [max_id]
  have hm2 : max_id = 4294967295 := by norm_num [max_id]
  omega

theorem expUnits_length (pid : ℕ) (cs : List (List ℕ)) :
    (expUnits pid cs).length = cs.length := by
  induction cs generalizing pid with
  | nil => rfl
  | cons c cs ih =>
    cases cs with
    | nil => rfl
    | cons c2 cs' =>
      rw [expUnits]
      simp only [List.length_cons]
      rw [ih (pid + 1)]
      simp

theorem expUnits_getElem? (pid : ℕ) (cs : List (List ℕ)) : ∀ (i : ℕ),
    (expUnits pid cs)[i]? = (cs[i]?).map (fun c =>
      buildI 0 ⟨c, (pid + i) % max_id,
        if i + 1 = cs.length then 0x7 else 0x0⟩) := by
  induction cs generalizing pid with
  | nil =>
    intro i
    simp [expUnits]
  | cons c cs ih =>
    intro i
    cases cs with
    | nil =>
      cases i with
      | zero =>
        rw [expUnits]
        simp
      | succ i =>
        rw [expUnits]
        simp
    | cons c2 cs' =>
      cases i with
      | zero =>
        rw [expUnits]
        simp only [List.getElem?_cons_zero, Option.map_some']
        rw [if_neg (by simp only [List.length_cons]; omega)]
        simp
      | succ i =>
        rw [expUnits]
        simp only [List.getElem?_cons_succ]
        rw [ih (pid + 1) i]
        cases hgi : (c2 :: cs')[i]? with
        | none => simp
        | some cv =>
          simp only [Option.map_some']
          rw [show pid + 1 + i = pid + (i + 1) from by omega]
          by_cases hI : i + 1 = (c2 :: cs').length
          · rw [if_pos hI, if_pos (by
              simp only [List.length_cons] at hI ⊢
              omega)]
          · rw [if_neg hI, if_neg (by
              simp only [List.length_cons] at hI ⊢
              omega)]

theorem encodeUnitsAux_ok (cs : List (List ℕ)) : ∀ (st : PacketState)
    (pid : ℕ) (prev : Option Packet) (acc : List (List ℕ)),
    st.overflow = 0 →
    (∀ c ∈ cs, c.length ≤ data_size) →
    pid + cs.length ≤ max_id + 1 →
    cs ≠ [] →
    encodeUnitsAux st pid prev acc cs =
      .ok (acc ++ expUnits pid cs, ⟨((pid + cs.length - 1 : ℕ) : ℤ), 0⟩) := by
  induction cs with
  | nil =>
    intro st pid prev acc hov hmem hbound hne
    exact absurd rfl hne
  | cons c cs ih =>
    intro st pid prev acc hov hmem hbound hne
    rw [encodeUnitsAux]
    rw [constructPacket_data_ok st c pid (by omega)
      (hmem c (List.mem_cons_self c cs))
      (by
        have hm : ((max_id : ℕ) : ℤ) = 4294967295 := by norm_num [max_id]
        have hm2 : max_id = 4294967295 := by norm_num [max_id]
        simp only [List.length_cons] at hbound
        omega)]
    dsimp only
    rw [hov, build_zero]
    dsimp only
    cases cs with
    | nil =>
      rw [encodeUnitsAux]
      dsimp only
      rw [build_zero]
      dsimp only
      rw [expUnits]
      rw [show ({ (⟨c, ((pid : ℤ) % ((max_id : ℕ) : ℤ)).toNat, 0x0⟩ : Packet)
          with op_code := 0x7 } : Packet) =
        ⟨c, pid % max_id, 0x7⟩ from by rw [toNat_int_mod]]
      simp
    | cons c2 cs' =>
      rw [ih ⟨pid, 0⟩ (pid + 1) _ _ rfl
        (fun x hx => hmem x (List.mem_cons_of_mem c hx))
        (by simp only [List.length_cons] at hbound ⊢; omega)
        (by simp)]
      rw [expUnits]
      rw [toNat_int_mod]
      simp only [List.length_cons]
      rw [show pid + 1 + (cs'.length + 1) - 1 = pid + (cs'.length + 1 + 1) - 1
        from by omega]
      simp [List.append_assoc]

theorem chunks77_ne_nil (src : List ℕ) (hne : src ≠ []) :
    chunks77 src ≠ [] := by
  cases src with
  | nil => exact absurd rfl hne
  | cons a t =>
    rw [chunks77_cons]
    simp

theorem buildInitPacket_ok (st : PacketState) (name : List ℕ) (n L : ℕ)
    (hov : st.overflow = 0)
    (hbad : ∃ c ∈ name, isHexDigit c = false ∧ c ≠ 32)
    (hlen : (initInfoStr name n L).length ≤ data_size) :
    buildInitPacket st name n L =
      .ok (buildI 0 ⟨initInfoStr name n L, 0, 0x1⟩, st) := by
  obtain ⟨c, hc, h1, h2⟩ := hbad
  unfold buildInitPacket
  rw [pyStrToBytes_of_badchar (initInfoStr name n L)
    ⟨c, by
      unfold initInfoStr
      exact List.mem_append_left _ (List.mem_append_left _ hc), h1, h2⟩]
  unfold constructPacket
  rw [if_neg (by omega), if_pos hlen,
    if_neg (by rintro (h | ⟨h, -⟩) <;> simp at h),
    if_pos (by omega),
    if_neg (by
      have hm : ((max_id : ℕ) : ℤ) = 4294967295 := by norm_num [max_id]
      omega)]
  dsimp only
  rw [hov, build_zero]

/-- The full encoder run on a non-empty source: one data unit per
77-byte chunk (the last rewritten to op 0x7) plus the metadata unit. -/
theorem encoderRun_ok (name src : List ℕ)
    (hne : src ≠ [])
    (hn : (chunks77 src).length ≤ max_id + 1)
    (hbad : ∃ c ∈ name, isHexDigit c = false ∧ c ≠ 32)
    (hinfo : (initInfoStr name (chunks77 src).length src.length).length ≤
      data_size) :
    encoderRun initState name src =
      .ok (expUnits 0 (chunks77 src),
        buildI 0 ⟨initInfoStr name (chunks77 src).length src.length, 0, 0x1⟩,
        ⟨(((chunks77 src).length - 1 : ℕ) : ℤ), 0⟩) := by
  unfold encoderRun encodeUnits
  rw [encodeUnitsAux_ok (chunks77 src) initState 0 none [] rfl
    (fun c hc => (mem_chunks77 src c hc).1)
    (by omega)
    (chunks77_ne_nil src hne)]
  dsimp only
  rw [buildInitPacket_ok _ name _ _ rfl hbad hinfo]
  dsimp only
  rw [List.nil_append]
  simp

theorem initInfoStr_eq (name : List ℕ) (n L : ℕ) :
    initInfoStr name n L = name ++ 32 :: (natStr n ++ 32 :: natStr L) := by
  unfold initInfoStr
  simp [List.append_assoc]

/-- C2 counterexample: the payload `[0xDC, 0xBA]` with the sequential
pid 0 (fresh state) constructs and serializes fine, but the
deserializer's end-word search fires at the very start of the payload
region (offset 19), so the recovered payload is empty rather than the
original two bytes: the claimed round trip fails. -/
theorem frame_roundtrip_cex :
    constructPacket initState [0xDC, 0xBA] 0 0x0 =
      .ok (⟨[0xDC, 0xBA], 0, 0x0⟩, ⟨0, 0⟩) ∧
    deserializeFrame (buildI 0 ⟨[0xDC, 0xBA], 0, 0x0⟩) = ([], 0, 0) ∧
    ([] : List ℕ) ≠ [0xDC, 0xBA] := by
  refine ⟨by decide, by decide, by decide⟩

/-- C2 (amended): for every payload of length at most 77 and every
sequential pid below `max_id`, *provided the serialized frame contains
no occurrence of the end-word byte pair 0xDC,0xBA before the footer*,
serialization succeeds (frame `buildI 0 pkt`) and deserializing — header
fields via the majority-vote header decode, payload via the
majority-vote decode of bytes 19 up to the first end-word occurrence —
yields back exactly the original payload, pid, and opCode. -/
theorem frame_roundtrip (st st1 : PacketState) (data : List ℕ) (pid : ℤ)
    (pkt : Packet)
    (hlen : data.length ≤ 77)
    (hseq : pid = st.last_id + 1)
    (hpos : 0 ≤ pid)
    (hlt : pid < (max_id : ℤ))
    (hov : st.overflow = 0)
    (hc : constructPacket st data pid 0x0 = .ok (pkt, st1))
    (hclean : hasPair ((buildI 0 pkt).take (19 + 3 * pkt.data.length + 1)) = false) :
    build st1.overflow pkt = .ok (buildI 0 pkt) ∧
      deserializeFrame (buildI 0 pkt) = (data, pid.toNat, 0x0) := by
  rw [constructPacket_data_ok st data pid hpos (by simpa [data_size] using hlen)
    (by omega)] at hc
  injection hc with h'
  injection h' with ha hb
  have hpkt : pkt = ⟨data, (pid % (max_id : ℤ)).toNat, 0x0⟩ := ha.symm
  have hst1 : st1 = (⟨pid, st.overflow⟩ : PacketState) := hb.symm
  have hpidv : (pid % (max_id : ℤ)).toNat = pid.toNat := by
    have : pid % (max_id : ℤ) = pid := Int.emod_eq_of_lt hpos hlt
    rw [this]
  constructor
  · rw [hst1, hov]
    unfold build
    norm_num
  · rw [deserializeFrame_buildI 0 pkt hclean (by omega)
      (by rw [hpkt]; exact (by omega : (0 : ℕ) < 8))
      (by rw [hpkt]
          show (pid % (max_id : ℤ)).toNat < 2 ^ 32
          have hm : (max_id : ℤ) = 4294967295 := by norm_num [max_id]
          omega)]
    rw [hpkt, hpidv]

theorem frame_roundtrip_witness :
    (([0x41] : List ℕ).length ≤ 77 ∧ (0 : ℤ) = initState.last_id + 1 ∧
      (0 : ℤ) ≤ 0 ∧ (0 : ℤ) < (max_id : ℤ) ∧ initState.overflow = 0) ∧
    build (⟨0, 0⟩ : PacketState).overflow ⟨[0x41], 0, 0x0⟩ =
        .ok (buildI 0 ⟨[0x41], 0, 0x0⟩) ∧
      deserializeFrame (buildI 0 ⟨[0x41], 0, 0x0⟩) = ([0x41], 0, 0x0) :=
  ⟨by decide, frame_roundtrip initState ⟨0, 0⟩ [0x41] 0 ⟨[0x41], 0, 0x0⟩
    (by decide) (by decide) (by decide) (by decide) (by decide)
    (by decide) (by decide)⟩

/-- C3: the source's own docstring promises a `ValueError` when "the pid
is out of order", but by Python operator precedence the ordering check
only guards `op_code 0x7`: a data packet (`op_code 0x0`) with pid 5 on a
fresh state (`last_id = -1`) is constructed successfully.  The pid-
negative and oversize checks, and the `0x7` ordering check, do behave
as documented. -/
theorem construct_ordering_bug :
    constructPacket initState [0x61] 5 0x0 =
      .ok (⟨[0x61], 5, 0x0⟩, ⟨5, 0⟩) ∧
    constructPacket initState [0x61] 5 0x7 = .error .valueErrorOrder ∧
    constructPacket initState [0x61] (-1) 0x0 = .error .valueErrorPid ∧
    constructPacket initState (List.replicate 78 0) 0 0x0 =
      .error .valueErrorSize := by
  refine ⟨by decide, by decide, by decide, by decide⟩

/-- C7: every validly constructed packet (payload at most 77 bytes, no
pid overflow so the class `overflow` is still the integer 0) serializes
to a frame of exactly `max_size = 256` bytes, and every byte beyond the
19-byte header, the triple payload, and the 4-byte footer (i.e. every
position from `23 + 3 * L` up to 255) is the fill byte 0xFF. -/
theorem build_frame_size_and_fill (st st1 : PacketState) (data : List ℕ)
    (pid : ℤ) (op : ℕ) (pkt : Packet) (i : ℕ)
    (hc : constructPacket st data pid op = .ok (pkt, st1))
    (hov : st1.overflow = 0)
    (hi1 : 23 + 3 * pkt.data.length ≤ i) (hi2 : i < 256) :
    build st1.overflow pkt = .ok (buildI 0 pkt) ∧
      (buildI 0 pkt).length = 256 ∧
      (buildI 0 pkt).getD i 0 = 0xFF := by
  obtain ⟨hd, -, hlen⟩ := constructPacket_ok_fields st st1 data pid op pkt hc
  have hlen' : pkt.data.length ≤ 77 := by rw [hd]; exact hlen
  refine ⟨?_, ?_, ?_⟩
  · rw [hov]
    unfold build
    norm_num
  · rw [buildI_decomp]
    simp [length_buildHeaderI, max_size]
    omega
  · have h19 : (buildHeaderI 0 pkt).length = 19 := length_buildHeaderI 0 pkt
    rw [buildI_decomp]
    rw [List.getD_eq_getElem?_getD,
      List.getElem?_append_right (by simp [h19]; omega)]
    rw [show (0xDC :: 0xBA :: 0xFF :: 0xFF ::
        List.replicate (max_size - (23 + 3 * pkt.data.length)) 0xFF) =
      [0xDC, 0xBA, 0xFF, 0xFF] ++
        List.replicate (max_size - (23 + 3 * pkt.data.length)) 0xFF from rfl]
    rw [List.getElem?_append_right (by simp [h19]; omega)]
    rw [List.getElem?_replicate]
    rw [if_pos (by simp [h19, max_size]; omega)]
    rfl

theorem build_frame_size_and_fill_witness :
    ((⟨0, 0⟩ : PacketState).overflow = 0 ∧ 23 + 3 * 1 ≤ 100 ∧ 100 < 256) ∧
    build (⟨0, 0⟩ : PacketState).overflow ⟨[0x41], 0, 0x0⟩ =
        .ok (buildI 0 ⟨[0x41], 0, 0x0⟩) ∧
      (buildI 0 ⟨[0x41], 0, 0x0⟩).length = 256 ∧
      (buildI 0 ⟨[0x41], 0, 0x0⟩).getD 100 0 = 0xFF :=
  ⟨by decide, build_frame_size_and_fill initState ⟨0, 0⟩ [0x41] 0 0x0
    ⟨[0x41], 0, 0x0⟩ 100 (by decide) (by decide) (by decide) (by decide)⟩

/-- C8: the overflow "bit" is not a bit.  Constructing a data packet
with pid `2^32 > max_id` (after `2^32` sequential constructions,
`last_id = max_id`) assigns `Packet.overflow` the float
`(max_id / pid) % 2 = 4294967295 / 4294967296` — strictly between 0 and
1 (exactly representable as an IEEE double, so the rational model is
exact) — and the subsequent `build` raises `TypeError` at
`overflow << 7` instead of serializing a flags byte with overflow
bit 1. -/
theorem overflow_flag_bug :
    constructPacket ⟨4294967295, 0⟩ [0x41] 4294967296 0x0 =
      .ok (⟨[0x41], 1, 0x0⟩,
        ⟨4294967296, (4294967295 : ℚ) / 4294967296⟩) ∧
    ((4294967295 : ℚ) / 4294967296 ≠ 0 ∧
      (4294967295 : ℚ) / 4294967296 ≠ 1) ∧
    build ((4294967295 : ℚ) / 4294967296) ⟨[0x41], 1, 0x0⟩ =
      .error .typeError := by
  refine ⟨?_, ⟨by norm_num, by norm_num⟩, ?_⟩
  · unfold constructPacket
    rw [if_neg (by omega), if_pos (by simp [data_size]),
      if_pos (Or.inl rfl), if_pos (by norm_num [max_id])]
    have h1 : ((4294967296 : ℤ) % (max_id : ℤ)).toNat = 1 := by
      norm_num [max_id]
    have h2 : qmod2 ((max_id : ℚ) / ((4294967296 : ℤ) : ℚ)) =
        (4294967295 : ℚ) / 4294967296 := by
      unfold qmod2
      have hfl : ⌊(max_id : ℚ) / ((4294967296 : ℤ) : ℚ) / 2⌋ = 0 := by
        rw [Int.floor_eq_zero_iff]
        constructor <;> norm_num [max_id]
      rw [hfl]
      norm_num [max_id]
    rw [h1, h2]
  · unfold build
    rw [if_neg]
    rintro ⟨hden, -⟩
    have hq : ((((4294967295 : ℚ) / 4294967296).num : ℤ) : ℚ) =
        (4294967295 : ℚ) / 4294967296 := (Rat.den_eq_one_iff _).mp hden
    have h0 : (0 : ℚ) < ((((4294967295 : ℚ) / 4294967296).num : ℤ) : ℚ) := by
      rw [hq]
      norm_num
    have h1 : ((((4294967295 : ℚ) / 4294967296).num : ℤ) : ℚ) < 1 := by
      rw [hq]
      norm_num
    have hz0 : 0 < ((4294967295 : ℚ) / 4294967296).num := by exact_mod_cast h0
    have hz1 : ((4294967295 : ℚ) / 4294967296).num < 1 := by exact_mod_cast h1
    omega

/-- C9: the "last pid" ordering state lives on the packet type itself
and is threaded through every construction: a successful construction
with `op_code` 0x0 or 0x7 sets `last_id` to its pid, and the ordering
precondition of any later `0x7` construction — wherever in the process
it happens — is determined by that shared value: it succeeds exactly
when its pid is the previous data pid plus one. -/
theorem last_id_shared_state (st st1 : PacketState) (data d2 : List ℕ)
    (pid q : ℤ) (op : ℕ) (pkt : Packet)
    (hop : op = 0x0 ∨ op = 0x7)
    (hc : constructPacket st data pid op = .ok (pkt, st1))
    (hd2 : d2.length ≤ data_size) (hq : 0 ≤ q) :
    st1.last_id = pid ∧
      ((constructPacket st1 d2 q 0x7).isOk = true ↔ q = pid + 1) := by
  have hlast : st1.last_id = pid := by
    unfold constructPacket at hc
    by_cases h1 : pid < 0
    · rw [if_pos h1] at hc
      exact Except.noConfusion hc
    rw [if_neg h1] at hc
    by_cases h2 : data.length ≤ data_size
    · rw [if_pos h2] at hc
      by_cases h3 : op = 0x0 ∨ (op = 0x7 ∧ st.last_id + 1 = pid)
      · rw [if_pos h3] at hc
        injection hc with h'
        injection h' with ha hb
        rw [← hb]
        split <;> rfl
      · rcases hop with rfl | rfl
        · exact absurd (Or.inl rfl) h3
        · rw [if_neg h3, if_neg (by rintro ⟨-, hb7⟩; omega)] at hc
          exact Except.noConfusion hc
    · rw [if_neg h2] at hc
      exact Except.noConfusion hc
  refine ⟨hlast, ?_⟩
  unfold constructPacket
  rw [if_neg (by omega), if_pos hd2]
  by_cases hqe : q = pid + 1
  · rw [if_pos (Or.inr ⟨rfl, by rw [hlast]; omega⟩)]
    simp [Except.isOk, Except.toBool, hqe]
  · rw [if_neg (by
      rintro (h7 | ⟨-, hord⟩)
      · exact absurd h7 (by omega)
      · rw [hlast] at hord
        omega)]
    rw [if_neg (by omega)]
    simp [Except.isOk, Except.toBool, hqe]

theorem last_id_shared_state_witness :
    (((0x0 : ℕ) = 0x0 ∨ (0x0 : ℕ) = 0x7) ∧ ([0x42] : List ℕ).length ≤ data_size ∧
      (0 : ℤ) ≤ 6) ∧
    (⟨5, 0⟩ : PacketState).last_id = 5 ∧
      ((constructPacket ⟨5, 0⟩ [0x42] 6 0x7).isOk = true ↔ (6 : ℤ) = 5 + 1) :=
  ⟨by decide, last_id_shared_state initState ⟨5, 0⟩ [0x61] [0x42] 5 6 0x0
    ⟨[0x61], 5, 0x0⟩ (Or.inl rfl) (by decide) (by decide) (by decide)⟩

/-- C5: for every k > 0 and every byte run `d` of length k,
`resolveExpansion` applied to the 3k-length run consisting of three
identical copies of `d` (zero corrupted copies) returns exactly `d`. -/
theorem resolveExpansion_recovers_clean_triple (d : List ℕ)
    (hk : 0 < d.length) : resolveExpansion (d ++ d ++ d) = d :=
  resolveExpansion_triple d

theorem resolveExpansion_recovers_clean_triple_witness :
    0 < ([1, 2, 3] : List ℕ).length ∧
      resolveExpansion ([1, 2, 3] ++ [1, 2, 3] ++ [1, 2, 3]) = [1, 2, 3] :=
  ⟨by decide, resolveExpansion_recovers_clean_triple [1, 2, 3] (by decide)⟩

/-- C6: for every k > 0 and every 3k-length run in which, at each
position, at most one of the three copies differs from the original
value (at least two of the three candidate bytes agree with it),
`resolveExpansion` returns the 2-of-3 majority value — the original —
at every output position. -/
theorem resolveExpansion_majority_single_corruption (d r : List ℕ) (k : ℕ)
    (hk : 0 < k) (hd : d.length = k) (hr : r.length = 3 * k)
    (hcorr : ∀ i < k,
      (r.getD i 0 = d.getD i 0 ∧ r.getD (i + k) 0 = d.getD i 0) ∨
      (r.getD i 0 = d.getD i 0 ∧ r.getD (i + 2 * k) 0 = d.getD i 0) ∨
      (r.getD (i + k) 0 = d.getD i 0 ∧ r.getD (i + 2 * k) 0 = d.getD i 0)) :
    resolveExpansion r = d := by
  subst hd
  unfold resolveExpansion
  rw [hr, Nat.mul_div_cancel_left _ (by omega : 0 < 3)]
  calc (List.range d.length).map (fun i =>
          majority3 (r.getD i 0) (r.getD (i + d.length) 0)
            (r.getD (i + 2 * d.length) 0))
      = (List.range d.length).map (fun i => d.getD i 0) := by
        apply List.map_congr_left
        intro i hi
        rw [List.mem_range] at hi
        exact majority3_of_two _ _ _ _ (hcorr i hi)
    _ = d := map_range_getD d

theorem resolveExpansion_majority_single_corruption_witness :
    (0 < 1 ∧ ([5] : List ℕ).length = 1 ∧
        ([5, 7, 5] : List ℕ).length = 3 * 1) ∧
      resolveExpansion [5, 7, 5] = [5] :=
  ⟨by decide, resolveExpansion_majority_single_corruption [5] [5, 7, 5] 1
    (by decide) (by decide) (by decide) (by decide)⟩

/-! ## Lemmas: the decoder on a complete ASCII unit store -/

theorem initInfoStr_ascii (name : List ℕ) (n L : ℕ)
    (hname : ∀ c ∈ name, c < 0x80) :
    ∀ x ∈ initInfoStr name n L, x < 0x80 := by
  intro x hx
  rw [initInfoStr_eq] at hx
  rcases List.mem_append.mp hx with hx | hx
  · exact hname x hx
  · rcases List.mem_cons.mp hx with rfl | hx
    · omega
    · rcases List.mem_append.mp hx with hx | hx
      · have := natStr_digits n x hx
        omega
      · rcases List.mem_cons.mp hx with rfl | hx
        · omega
        · have := natStr_digits L x hx
          omega

theorem initFrame_clean (name : List ℕ) (n L : ℕ)
    (hname : ∀ c ∈ name, c < 0x80) :
    hasPair ((buildI 0 ⟨initInfoStr name n L, 0, 0x1⟩).take
      (19 + 3 * (initInfoStr name n L).length + 1)) = false :=
  hasPair_prefix_buildI 0 ⟨initInfoStr name n L, 0, 0x1⟩
    (initInfoStr_ascii name n L hname)
    (by show pidClean 0; decide)
    (by show flagsByte 0 0x1 ≠ 0xBA; decide)
    (by show flagsByte 0 0x1 ≠ 0xDC; decide)

theorem decoderInit_ok (name : List ℕ) (n L : ℕ)
    (hname : ∀ c ∈ name, c < 0x80)
    (hnospace : 32 ∉ name) :
    decoderInit (buildI 0 ⟨initInfoStr name n L, 0, 0x1⟩) = .ok (name, n, L) := by
  unfold decoderInit
  rw [decodeUnit_buildI 0 ⟨initInfoStr name n L, 0, 0x1⟩
    (initFrame_clean name n L hname)]
  rw [utf8Decode_ascii _ (initInfoStr_ascii name n L hname)]
  split
  · rename_i heq
    exact Option.noConfusion heq
  rename_i s heq
  injection heq with hs
  subst hs
  rw [initInfoStr_eq]
  rw [pySplitSp_append name _ hnospace]
  rw [pySplitSp_append (natStr n) _ (natStr_no_space n)]
  rw [pySplitSp_nospace (natStr L) (natStr_no_space L)]
  rw [if_pos (by simp)]
  simp only [List.getD_cons_succ, List.getD_cons_zero]
  rw [pyIntParse_natStr, pyIntParse_natStr]

set_option maxRecDepth 4000 in
theorem bulkLoop_complete (src : List ℕ)
    (hsrc : ∀ b ∈ src, b < 0x80)
    (hpid : ∀ p < (chunks77 src).length, pidClean (p % max_id)) :
    ∀ (fuel i : ℕ), i ≤ (chunks77 src).length →
      (chunks77 src).length + 1 - i ≤ fuel →
      decoderBulkLoop (fun p => (expUnits 0 (chunks77 src))[p]?) fuel i
        (src.take (77 * i)) [] = .ok (src, []) := by
  have hlc := length_chunks77 src
  intro fuel
  induction fuel with
  | zero =>
    intro i hi hf
    exact absurd hf (by omega)
  | succ fuel ih =>
    intro i hi hf
    by_cases hieq : i = (chunks77 src).length
    · subst hieq
      have hst : (expUnits 0 (chunks77 src))[(chunks77 src).length]? = none := by
        rw [expUnits_getElem?]
        rw [List.getElem?_eq_none le_rfl]
        rfl
      have hst2 : (expUnits 0 (chunks77 src))[(chunks77 src).length + 1]? =
          none := by
        rw [expUnits_getElem?]
        rw [List.getElem?_eq_none (by omega)]
        rfl
      rw [decoderBulkLoop, hst, hst2]
      split
      · rename_i frame heq
        exact Option.noConfusion heq
      · rw [if_neg (by simp)]
        rw [List.take_of_length_le (by omega)]
        rw [utf8Encode_ascii src hsrc]
    · have hilt : i < (chunks77 src).length := by omega
      have h77 : 77 * i < src.length := by omega
      have hchunk : (chunks77 src)[i]? = some ((src.drop (77 * i)).take 77) := by
        rw [List.getElem?_eq_getElem hilt]
        rw [show (chunks77 src)[i] = (chunks77 src).getD i [] from by
          rw [List.getD_eq_getElem?_getD, List.getElem?_eq_getElem hilt]
          rfl]
        rw [chunks77_getElem src.length src i le_rfl hilt]
      have hchunkascii : ∀ x ∈ (src.drop (77 * i)).take 77, x < 0x80 :=
        fun x hx => hsrc x (List.mem_of_mem_drop (List.mem_of_mem_take hx))
      have hfl : ∀ op : ℕ, op = 0x7 ∨ op = 0x0 →
          flagsByte 0 op ≠ 0xBA ∧ flagsByte 0 op ≠ 0xDC := by
        rintro op (rfl | rfl) <;> exact ⟨by decide, by decide⟩
      have hopc : (if i + 1 = (chunks77 src).length then 0x7 else 0x0) = 0x7 ∨
          (if i + 1 = (chunks77 src).length then 0x7 else 0x0) = 0x0 := by
        split
        · exact Or.inl rfl
        · exact Or.inr rfl
      have hclean := hasPair_prefix_buildI 0
        ⟨(src.drop (77 * i)).take 77, (0 + i) % max_id,
          if i + 1 = (chunks77 src).length then 0x7 else 0x0⟩
        hchunkascii (by
          show pidClean ((0 + i) % max_id)
          rw [show 0 + i = i from by omega]
          exact hpid i hilt)
        (hfl _ hopc).1 (hfl _ hopc).2
      have hdec : decodeUnit (buildI 0
          ⟨(src.drop (77 * i)).take 77, (0 + i) % max_id,
            if i + 1 = (chunks77 src).length then 0x7 else 0x0⟩) =
          some ((src.drop (77 * i)).take 77) := by
        rw [decodeUnit_buildI _ _ hclean]
        exact utf8Decode_ascii _ hchunkascii
      have hstore : (expUnits 0 (chunks77 src))[i]? =
          some (buildI 0 ⟨(src.drop (77 * i)).take 77, (0 + i) % max_id,
            if i + 1 = (chunks77 src).length then 0x7 else 0x0⟩) := by
        rw [expUnits_getElem?, hchunk]
        rfl
      have htake : (src.take (77 * i)).length = 77 * i := by
        rw [List.length_take]
        omega
      have hamm : ammendScaffoldData (src.take (77 * i))
          ((src.drop (77 * i)).take 77) i = src.take (77 * (i + 1)) := by
        rw [ammend_append _ _ i htake]
        rw [show 77 * (i + 1) = 77 * i + 77 from by omega]
        rw [List.take_add]
      rw [decoderBulkLoop, hstore]
      split
      · rename_i frame heq
        injection heq with hf
        subst hf
        rw [hdec]
        split
        · rename_i info heq2
          injection heq2 with hinfo
          subst hinfo
          rw [hamm]
          exact ih (i + 1) (by omega) (by omega)
        · rename_i heq2
          exact Option.noConfusion heq2
      · rename_i heq
        exact Option.noConfusion heq

set_option maxRecDepth 8000 in
/-- C1 counterexample: for the one-byte source `[0xFF]` (a byte that is
not valid UTF-8), encoding succeeds — one data unit (pid 0, rewritten to
op 0x7) plus the metadata unit — but the decoder's bulk pass crashes
with `UnicodeDecodeError` at `information.decode('utf-8')` on the very
first unit: no output file is produced and no missing-pid report is
returned, so the original byte is not reproduced. -/
theorem encode_decode_cex :
    encoderRun initState [102] [0xFF] =
      .ok ([buildI 0 ⟨[0xFF], 0, 0x7⟩],
        buildI 0 ⟨initInfoStr [102] 1 1, 0, 0x1⟩, ⟨0, 0⟩) ∧
    decoderRun (fun p => [buildI 0 ⟨[0xFF], 0, 0x7⟩][p]?)
        (buildI 0 ⟨initInfoStr [102] 1 1, 0, 0x1⟩) 3 =
      .error .unicodeDecodeError := by
  refine ⟨by decide, by decide⟩

/-- C1 (amended): for every non-empty ASCII source (every byte < 0x80),
with a file base name that is ASCII, contains no space and at least one
non-hex-digit character (so the metadata payload is not mistaken for a
hex string), a metadata payload that fits in one packet, pid byte
encodings free of the end-word pair, and at most `max_id + 1` chunks:
the encoder produces exactly `⌈L / 77⌉` data units (consecutive pids
from 0) plus one metadata unit, and the decoder's bulk pass over all of
them reproduces exactly the original `L` bytes in the final output file
and reports no missing pids. -/
theorem encode_decode_ascii_roundtrip (name src : List ℕ)
    (hne : src ≠ [])
    (hsrc : ∀ b ∈ src, b < 0x80)
    (hname_ascii : ∀ c ∈ name, c < 0x80)
    (hname_nospace : 32 ∉ name)
    (hname_badhex : ∃ c ∈ name, isHexDigit c = false ∧ c ≠ 32)
    (hinfo : (initInfoStr name (chunks77 src).length src.length).length ≤
      data_size)
    (hpid : ∀ p < (chunks77 src).length, pidClean (p % max_id))
    (hn : (chunks77 src).length ≤ max_id + 1) :
    ∃ units initF st1,
      encoderRun initState name src = .ok (units, initF, st1) ∧
      units.length = (src.length + 76) / 77 ∧
      decoderRun (fun p => units[p]?) initF (units.length + 2) =
        .ok (none, src) := by
  refine ⟨expUnits 0 (chunks77 src),
    buildI 0 ⟨initInfoStr name (chunks77 src).length src.length, 0, 0x1⟩,
    ⟨(((chunks77 src).length - 1 : ℕ) : ℤ), 0⟩,
    encoderRun_ok name src hne hn hname_badhex hinfo, ?_, ?_⟩
  · rw [expUnits_length, length_chunks77]
  · unfold decoderRun
    rw [decoderInit_ok name _ _ hname_ascii hname_nospace]
    rw [show (expUnits 0 (chunks77 src)).length + 2 =
      ((chunks77 src).length + 1) + 1 from by rw [expUnits_length]]
    rw [show (0 : ℕ) = 77 * 0 from rfl] at *
    have hb := bulkLoop_complete src hsrc hpid ((chunks77 src).length + 1 + 1)
      0 (by omega) (by omega)
    rw [show src.take (77 * 0) = [] from by simp] at hb
    rw [hb]
    dsimp only
    rw [if_pos rfl]
    rw [List.drop_eq_nil_of_le (by simp)]
    simp

set_option maxRecDepth 8000 in
theorem encode_decode_ascii_roundtrip_witness :
    (([0x41, 0x42] : List ℕ) ≠ [] ∧
      (∀ b ∈ ([0x41, 0x42] : List ℕ), b < 0x80) ∧
      (∀ c ∈ ([46] : List ℕ), c < 0x80) ∧ 32 ∉ ([46] : List ℕ) ∧
      (∃ c ∈ ([46] : List ℕ), isHexDigit c = false ∧ c ≠ 32)) ∧
    (∃ units initF st1,
      encoderRun initState [46] [0x41, 0x42] = .ok (units, initF, st1) ∧
      units.length = (([0x41, 0x42] : List ℕ).length + 76) / 77 ∧
      decoderRun (fun p => units[p]?) initF (units.length + 2) =
        .ok (none, [0x41, 0x42])) :=
  ⟨by decide, encode_decode_ascii_roundtrip [46] [0x41, 0x42]
    (by decide) (by decide) (by decide) (by decide) (by decide)
    (by decide) (by decide) (by decide)⟩

end QpaceQUIP
